import Mathlib

/-!
Verification of the ascii-art-color repository core: banner parsing
(`buildBanner`, `CharWidths` from the `parser` package), rendering
(`ASCII` from the `renderer` package) and colorization (`ApplyColor`,
`colorLine`, `findPositions` from the `coloring` package).

Modelling conventions (shallow embedding of the Go sources):

* A Go string is modelled as `List Char`.  The coloring functions index
  strings by byte (`text[i]`, `len(text)`); all their concrete inputs
  here are ASCII, where bytes and characters coincide, so list positions
  model byte positions.  `CharWidths` iterates runes (`for i, ch := range
  text`) where `i` advances by the UTF-8 size of each rune; its model
  tracks the byte index explicitly via `Char.utf8Size`.
* A Go map `map[rune][]string` is modelled as an association list with
  distinct keys.  A value `none` models a slice stored as nil; a missing
  key also reads as nil (`bannerGet`).  The comma-ok read distinguishes
  the two (`bannerFind`).
* Go panics (out-of-range indexing) are modelled by `Option`: a function
  that can panic returns `none` exactly on inputs where the Go code
  would panic.  Go `(value, error)` returns are modelled by `Except`:
  the Go code returns the zero value `""` together with the error, so
  `Except.error` carries all the information of the pair.
* Go `for` loops with early exit become structural recursions; the
  banner-building loop runs at most 95 iterations (the character code
  runs from 32 to at most 126), so a fuel argument of 95 is exact.
-/

namespace AsciiArtColor

/-- Go strings, as lists of characters (see the module docstring). -/
abbrev GoStr := List Char

/-- One character's block-art rows (`[]string` in Go). -/
abbrev Glyph := List GoStr

/-- `map[rune][]string`: association list; a `none` value is a stored nil slice. -/
abbrev Banner := List (Char × Option Glyph)

/-- Go `value, exists := banner[ch]`: the comma-ok map read. -/
def bannerFind (b : Banner) (c : Char) : Option (Char × Option Glyph) :=
  b.find? (fun e => e.1 == c)

/-- Go `banner[char]` as a plain read: nil (`none`) when the key is missing
or when a nil slice was stored. -/
def bannerGet (b : Banner) (c : Char) : Option Glyph :=
  match bannerFind b c with
  | none => none
  | some e => e.2

/-! ## The coloring package (src/internal/coloring, embedded in coloring_test.go) -/

/-- The ANSI reset sequence `"\033[0m"` (constant `Reset` in the source). -/
def RESET : GoStr := ['\x1b', '[', '0', 'm']

/-- A concrete ANSI color code (the test files use `"\033[31m"`, red). -/
def RED : GoStr := ['\x1b', '[', '3', '1', 'm']

/-- The inner loop of `findPositions`: does `substring` match `text` at
byte offset `i`?  (Go compares `text[i+p] != substring[p]` for all `p`.) -/
def matchAt (text sub : GoStr) (i : Nat) : Bool :=
  (text.drop i).take sub.length == sub

/-- The marking loop of `findPositions`: set positions `i .. i+n-1` to true. -/
def markRange (ps : List Bool) (i n : Nat) : List Bool :=
  ps.mapIdx (fun j b => b || (decide (i ≤ j) && decide (j < i + n)))

/-- `findPositions` from the source: a boolean per byte of `text`, true on the
union of all literal occurrence windows of `substring`; all true when
`substring` is empty.  Go's loop bound `len(text)-len(substring)` is a negative
int when the substring is longer than the text, so the scan body never runs. -/
def findPositions (text sub : GoStr) : List Bool :=
  if sub.length = 0 then
    List.replicate text.length true
  else if text.length < sub.length then
    List.replicate text.length false
  else
    (List.range (text.length - sub.length + 1)).foldl
      (fun ps i => if matchAt text sub i then markRange ps i sub.length else ps)
      (List.replicate text.length false)

/-- The loop of `colorLine` over `charWidths`, carrying the character index
`idx` and running column `offset`.  `positions.get? idx` models the Go read
`positions[idx]`, which panics (`none`) when `idx` is out of range; the
neighbour reads in `isStart`/`isEnd` are only reached when `positions[idx]`
is true and the neighbour index is in range, so `getD` is a faithful model
of them.  The `[]` case appends the unconsumed remainder `line[offset:]`
(empty when `offset` is past the end), as does the early `break` case. -/
def colorLineGo (line : GoStr) (positions : List Bool) (colorCode : GoStr) :
    Nat → Nat → List Nat → Option GoStr
  | _, offset, [] => some (line.drop offset)
  | idx, offset, w :: ws =>
    if line.length ≤ offset then some (line.drop offset)
    else
      match positions.get? idx with
      | none => none
      | some p =>
        let e := min (offset + w) line.length
        let isStart := p && (decide (idx = 0) || !(positions.getD (idx - 1) false))
        let isEnd := p && (decide (idx = positions.length - 1) || !(positions.getD (idx + 1) false))
        let seg := (line.drop offset).take (e - offset)
        (colorLineGo line positions colorCode (idx + 1) e ws).map
          (fun rest =>
            (if isStart then colorCode else []) ++ seg ++
              (if isEnd then RESET else []) ++ rest)

/-- `colorLine` from the source. -/
def colorLine (line : GoStr) (positions : List Bool) (charWidths : List Nat)
    (colorCode : GoStr) : Option GoStr :=
  colorLineGo line positions colorCode 0 0 charWidths

/-- Option-valued sequential map, modelling a Go loop whose body may panic:
the first panic aborts the whole call. -/
def mapMO (f : α → Option β) : List α → Option (List β)
  | [] => some []
  | a :: as =>
    match f a with
    | none => none
    | some b => (mapMO f as).map (fun bs => b :: bs)

/-- `ApplyColor` from the source: degenerate inputs are returned unchanged,
otherwise every art line is colored against the shared position array. -/
def ApplyColor (asciiArt : List GoStr) (text sub colorCode : GoStr)
    (charWidths : List Nat) : Option (List GoStr) :=
  if asciiArt.length = 0 || charWidths.length = 0 || text.length = 0 then
    some asciiArt
  else
    mapMO (fun line => colorLine line (findPositions text sub) charWidths colorCode)
      asciiArt

/-! ## The parser package (banner construction and character widths) -/

/-- Banner-construction errors (`fmt.Errorf` calls in `buildBanner`). -/
inductive BannerErr
  | empty
  | badCount (got : Nat)
  | incomplete (got : Nat)
deriving DecidableEq

/-- The slice `lines[i : i+8]` taken for one glyph. -/
def glyphAt (lines : List GoStr) (i : Nat) : Glyph := (lines.drop i).take 8

/-- The `buildBanner` loop: `for i+8 <= len(lines) && runeCode <= 126`, storing
`lines[i:i+8]` for `runeCode` and stepping `i` by 9.  `runeCode` starts at 32
and the guard stops it at 126, so at most 95 iterations run: fuel 95 is exact
and the fuel-out branch is never taken from `buildBanner`'s initial call. -/
def bannerLoop (lines : List GoStr) : Nat → Nat → Nat → Banner → Banner
  | 0, _, _, acc => acc
  | fuel + 1, rc, i, acc =>
    if i + 8 ≤ lines.length ∧ rc ≤ 126 then
      bannerLoop lines fuel (rc + 1) (i + 9) (acc ++ [(Char.ofNat rc, some (glyphAt lines i))])
    else acc

/-- `buildBanner` from part_004 (the fs-based parser): grouping starts at
line index 1, the very first line being consumed as a leading separator. -/
def buildBanner (lines : List GoStr) : Except BannerErr Banner :=
  if lines.length = 0 then .error .empty
  else if lines.length ≠ 855 then .error (.badCount lines.length)
  else
    let banner := bannerLoop lines 95 32 1 []
    if banner.length ≠ 95 then .error (.incomplete banner.length)
    else .ok banner

/-- `buildBanner` from part_007 (the path-based parser variant): identical
except that grouping starts at line index 0. -/
def buildBannerPath (lines : List GoStr) : Except BannerErr Banner :=
  if lines.length = 0 then .error .empty
  else if lines.length ≠ 855 then .error (.badCount lines.length)
  else
    let banner := bannerLoop lines 95 32 0 []
    if banner.length ≠ 95 then .error (.incomplete banner.length)
    else .ok banner

/-- Go `len` of a string: its UTF-8 byte count. -/
def byteLen (s : GoStr) : Nat := (s.map Char.utf8Size).sum

/-- The `CharWidths` loop `for i, char := range text`: `i` is the byte index
of each rune, advancing by its UTF-8 size.  `banner[char]` reads nil for a
missing key or a stored nil slice, and the loop skips it; a stored non-nil
glyph with zero rows reaches `glyph[0]`, a panic (`none`). -/
def charWidthsLoop (banner : Banner) : List Char → Nat → List Nat → Option (List Nat)
  | [], _, ws => some ws
  | c :: cs, i, ws =>
    match bannerGet banner c with
    | none => charWidthsLoop banner cs (i + c.utf8Size) ws
    | some [] => none
    | some (r0 :: _) => charWidthsLoop banner cs (i + c.utf8Size) (ws.set i (byteLen r0))

/-- `CharWidths` from the source: `make([]int, len(text))` allocates one zero
per byte of `text`; the loop then writes `len(glyph[0])` at each rune's
starting byte index. -/
def CharWidths (text : List Char) (banner : Banner) : Option (List Nat) :=
  charWidthsLoop banner text 0 (List.replicate (byteLen text) 0)

/-! ## The renderer package (part_005, function ASCII) -/

/-- Render-time errors of the `ASCII` function; `invalidChar` carries the
offending character (its code point is `Char.toNat` of it), matching the
error message `"invalid character %q (ASCII %d)"`. -/
inductive RenderErr
  | invalidChar (c : Char)
  | emptyBanner
  | missingChar (c : Char)
  | corruptGlyph (c : Char) (rows : Nat)
deriving DecidableEq

/-- Except-valued sequential map, modelling a Go loop that aborts and returns
`("", err)` on the first error. -/
def mapME (f : α → Except ε β) : List α → Except ε (List β)
  | [] => .ok []
  | a :: as =>
    match f a with
    | .error e => .error e
    | .ok b => (mapME f as).map (fun bs => b :: bs)

/-- The character test of `validateInput`: newline, or code point in 32..126. -/
def validChar (c : Char) : Bool :=
  c == '\n' || (decide (32 ≤ c.toNat) && decide (c.toNat ≤ 126))

/-- `validateInput` from the source: error on the first invalid character. -/
def validateInput (input : GoStr) : Except RenderErr Unit :=
  match input.find? (fun c => !validChar c) with
  | some c => .error (.invalidChar c)
  | none => .ok ()

/-- `validateBannerCharacters` from the source: comma-ok lookup, then the
row-count check (a stored nil slice has length 0 and is reported corrupt). -/
def validateBannerCharacters (ch : Char) (banner : Banner) : Except RenderErr Glyph :=
  match bannerFind banner ch with
  | none => .error (.missingChar ch)
  | some e =>
    let value := e.2.getD []
    if value.length ≠ 8 then .error (.corruptGlyph ch value.length)
    else .ok value

/-- Go `strings.Split(input, "\n")`. -/
def splitOnNl : GoStr → List GoStr
  | [] => [[]]
  | c :: cs =>
    match splitOnNl cs with
    | [] => [[]]
    | p :: ps => if c = '\n' then [] :: p :: ps else (c :: p) :: ps

/-- Drop of the trailing empty segment:
`if len(parts) > 0 && parts[len(parts)-1] == ""`. -/
def dropTrailingEmpty (parts : List GoStr) : List GoStr :=
  if parts.getLast? = some [] then parts.dropLast else parts

/-- Row `i` of one logical line's block: each character's row `i`, validated
per character, then `"\n"` (the source writes `"\n"` after every row). -/
def renderRow (line : GoStr) (banner : Banner) (i : Nat) : Except RenderErr GoStr :=
  (mapME (fun ch => (validateBannerCharacters ch banner).map (fun v => v.getD i [])) line).map
    (fun pieces => pieces.flatten ++ ['\n'])

/-- One logical line's 8-row block (`for i := 0; i < bannerHeight; i++`). -/
def renderBlock (line : GoStr) (banner : Banner) : Except RenderErr GoStr :=
  (mapME (fun i => renderRow line banner i) (List.range 8)).map List.flatten

/-- `ASCII` from part_005, in source order: validate, split, drop the trailing
empty segment, short-circuit empty input, reject an empty banner, then render
each part (an empty logical line contributes a single `"\n"`). -/
def ASCII (input : GoStr) (banner : Banner) : Except RenderErr GoStr :=
  match validateInput input with
  | .error e => .error e
  | .ok _ =>
    let parts := dropTrailingEmpty (splitOnNl input)
    if input = [] then .ok []
    else if banner.length = 0 then .error .emptyBanner
    else
      (mapME (fun line => if line = [] then .ok ['\n'] else renderBlock line banner) parts).map
        List.flatten

/-! ## Derived descriptions used to state the claims -/

/-- Entry `k` of the table built by the banner loop when grouping starts at
line index `start`: character `32 + k` mapped to `lines[start+9k : start+9k+8]`. -/
def tableEntry (start : Nat) (lines : List GoStr) (k : Nat) : Char × Option Glyph :=
  (Char.ofNat (32 + k), some (glyphAt lines (start + 9 * k)))

/-- The full 95-entry table built from 855 lines with grouping offset `start`. -/
def bannerTable (start : Nat) (lines : List GoStr) : Banner :=
  (List.range 95).map (tableEntry start lines)

/-- The table entries from character index `k` on (loop-invariant form). -/
def entriesFrom (start : Nat) (lines : List GoStr) (k : Nat) : Banner :=
  (List.range (95 - k)).map (fun j => tableEntry start lines (k + j))

/-- Modelled from the spec: the per-character width it describes for
`CharWidths` — the length of row 0 of the character's glyph when present,
0 when absent.  Compared against the source's `CharWidths` in claim C4. -/
def charWidthSpec (banner : Banner) (c : Char) : Nat :=
  match bannerGet banner c with
  | none => 0
  | some g => byteLen (g.headD [])

/-- The string ends with a line-break. -/
def EndsNl (s : GoStr) : Prop := ∃ t, s = t ++ ['\n']

/-- Go `strings.Contains`: does `pat` occur contiguously inside `s`? -/
def occursIn (pat s : GoStr) : Bool :=
  (List.range (s.length + 1)).any (fun i => (s.drop i).take pat.length == pat)

/-- `Inserted cc rst l r`: `r` is `l` with copies of the strings `cc` and
`rst` inserted at some positions — no character of `l` is dropped,
duplicated or reordered. -/
inductive Inserted (cc rst : GoStr) : GoStr → GoStr → Prop
  | nil : Inserted cc rst [] []
  | copy (c : Char) {l r : GoStr} : Inserted cc rst l r → Inserted cc rst (c :: l) (c :: r)
  | code {l r : GoStr} : Inserted cc rst l r → Inserted cc rst l (cc ++ r)
  | reset {l r : GoStr} : Inserted cc rst l r → Inserted cc rst l (rst ++ r)

/-! ## Concrete fixtures for witnesses and counterexamples -/

/-- 855 empty raw lines: a structurally valid banner input. -/
def lines855 : List GoStr := List.replicate 855 []

/-- 855 raw lines whose line 0 is `"X"` and all others empty: distinguishes
grouping offset 0 from grouping offset 1. -/
def linesX : List GoStr := [['X']] ++ List.replicate 854 []

/-- 855 raw lines whose lines 1 and 2 have different lengths: the glyph for
the space character gets rows of unequal length. -/
def linesY : List GoStr := [[], ['a', 'b'], ['c']] ++ List.replicate 852 []

/-- A one-character banner with a full 8-row glyph for `A`. -/
def bannerA : Banner :=
  [('A', some [['A', '1'], ['A', '2'], ['A', '3'], ['A', '4'],
    ['A', '5'], ['A', '6'], ['A', '7'], ['A', '8']])]

/-- A banner mapping `a` to a glyph whose row 0 has two columns. -/
def bannerW : Banner := [('a', some [['x', 'y']])]

/-- A banner storing an explicitly empty (non-nil, zero-row) glyph for `a`. -/
def bannerBad : Banner := [('a', some ([] : Glyph))]

/-- A banner mapping `a` to a one-row glyph (no zero-row entries). -/
def bannerOk : Banner := [('a', some [['x']])]

/-! ## Generic helper lemmas -/

theorem replicate_get? (a : α) :
    ∀ n i, (List.replicate n a).get? i = if i < n then some a else none
  | 0, _ => by simp
  | n + 1, 0 => by simp [List.replicate_succ]
  | n + 1, i + 1 => by
    simp only [List.replicate_succ, List.get?, replicate_get? a n i]
    simp [Nat.succ_lt_succ_iff]

theorem replicate_getD (a d : α) (n i : Nat) :
    (List.replicate n a).getD i d = if i < n then a else d := by
  simp only [List.getD, replicate_get?]
  split <;> rfl

theorem mapMO_some_map {f : α → Option β} {g : α → β} {l : List α}
    (h : ∀ a ∈ l, f a = some (g a)) : mapMO f l = some (l.map g) := by
  induction l with
  | nil => rfl
  | cons a as ih =>
    have ha := h a (List.mem_cons_self a as)
    have htl := ih (fun x hx => h x (List.mem_cons_of_mem _ hx))
    simp [mapMO, ha, htl]

theorem mapMO_eq_none {f : α → Option β} {l : List α} {a : α}
    (ha : a ∈ l) (hf : f a = none) : mapMO f l = none := by
  induction l with
  | nil => cases ha
  | cons b bs ih =>
    rcases List.mem_cons.mp ha with h | h
    · subst h; simp [mapMO, hf]
    · cases hfb : f b with
      | none => simp [mapMO, hfb]
      | some v => simp [mapMO, hfb, ih h]

theorem mapMO_forall₂ {f : α → Option β} {P : α → β → Prop} {l : List α}
    (h : ∀ a ∈ l, ∃ b, f a = some b ∧ P a b) :
    ∃ res, mapMO f l = some res ∧ List.Forall₂ P l res := by
  induction l with
  | nil => exact ⟨[], rfl, List.Forall₂.nil⟩
  | cons a as ih =>
    obtain ⟨b, hb, hP⟩ := h a (List.mem_cons_self a as)
    obtain ⟨res, hres, hF⟩ := ih (fun x hx => h x (List.mem_cons_of_mem _ hx))
    exact ⟨b :: res, by simp [mapMO, hb, hres], List.Forall₂.cons hP hF⟩

theorem mapME_ok {ε : Type} {f : α → Except ε β} {l : List α} {res : List β}
    (h : mapME f l = .ok res) :
    res.length = l.length ∧ ∀ b ∈ res, ∃ a ∈ l, f a = .ok b := by
  induction l generalizing res with
  | nil =>
    simp only [mapME] at h
    cases h
    simp
  | cons a as ih =>
    cases hfa : f a with
    | error e => simp [mapME, hfa] at h
    | ok b =>
      cases hrest : mapME f as with
      | error e => simp [mapME, hfa, hrest, Except.map] at h
      | ok res' =>
        simp only [mapME, hfa, hrest, Except.map] at h
        cases h
        obtain ⟨hlen, hmem⟩ := ih hrest
        refine ⟨by simp [hlen], ?_⟩
        intro x hx
        rcases List.mem_cons.mp hx with h | h
        · exact ⟨a, List.mem_cons_self a as, by rw [h, hfa]⟩
        · obtain ⟨a', ha', hfa'⟩ := hmem x h
          exact ⟨a', List.mem_cons_of_mem _ ha', hfa'⟩

theorem endsNl_append (s : GoStr) {t : GoStr} (h : EndsNl t) : EndsNl (s ++ t) := by
  obtain ⟨u, hu⟩ := h
  exact ⟨s ++ u, by simp [hu]⟩

theorem lines855_length : lines855.length = 855 := by
  unfold lines855
  rw [List.length_replicate]

theorem linesX_length : linesX.length = 855 := by
  unfold linesX
  rw [List.length_append, List.length_replicate]
  rfl

theorem linesY_length : linesY.length = 855 := by
  unfold linesY
  rw [List.length_append, List.length_replicate]
  rfl

theorem endsNl_flatten {l : List GoStr} (hne : l ≠ [])
    (h : ∀ x ∈ l, EndsNl x) : EndsNl l.flatten := by
  induction l with
  | nil => exact absurd rfl hne
  | cons x xs ih =>
    cases xs with
    | nil =>
      simp only [List.flatten_cons, List.flatten_nil, List.append_nil]
      exact h x (List.mem_cons_self x [])
    | cons y ys =>
      have : EndsNl (y :: ys).flatten :=
        ih (by simp) (fun z hz => h z (List.mem_cons_of_mem _ hz))
      simpa [List.flatten_cons] using endsNl_append x this

theorem markRange_length (ps : List Bool) (i n : Nat) :
    (markRange ps i n).length = ps.length := by
  simp [markRange]

theorem foldl_mark_length (text sub : GoStr) (is : List Nat) :
    ∀ ps : List Bool,
      (is.foldl (fun ps i => if matchAt text sub i then markRange ps i sub.length else ps)
        ps).length = ps.length := by
  induction is with
  | nil => intro ps; rfl
  | cons j js ih =>
    intro ps
    rw [List.foldl_cons, ih]
    split <;> simp [markRange_length]

theorem findPositions_length (text sub : GoStr) :
    (findPositions text sub).length = text.length := by
  unfold findPositions
  split
  · simp
  · split
    · simp
    · rw [foldl_mark_length]; simp

theorem findPositions_nil_sub (text : GoStr) :
    findPositions text [] = List.replicate text.length true := by
  simp [findPositions]

theorem sum_zero_last {ws : List Nat} (h : ws.sum = 0) : ws.getLast?.getD 0 = 0 := by
  cases hw : ws with
  | nil => rfl
  | cons a l =>
    rw [List.getLast?_eq_getLast _ (by simp), Option.getD_some]
    subst hw
    have hall := List.sum_eq_zero_iff.mp h
    exact hall _ (List.getLast_mem _)

/-- Controlled one-step reduction of the `colorLine` loop when no break and
no panic occurs at the current width entry. -/
theorem colorLineGo_cons_reduce (line cc : GoStr) (positions : List Bool)
    (idx offset w : Nat) (ws : List Nat) (p : Bool)
    (hoff : offset < line.length) (hp : positions.get? idx = some p) :
    colorLineGo line positions cc idx offset (w :: ws) =
      (colorLineGo line positions cc (idx + 1) (min (offset + w) line.length) ws).map
        (fun rest =>
          (if (p && (decide (idx = 0) || !(positions.getD (idx - 1) false))) = true
            then cc else []) ++
          (line.drop offset).take (min (offset + w) line.length - offset) ++
          (if (p && (decide (idx = positions.length - 1) ||
              !(positions.getD (idx + 1) false))) = true
            then RESET else []) ++ rest) := by
  simp only [colorLineGo, if_neg (Nat.not_le.mpr hoff), hp]

/-- On an all-true position array of positive length, with `idx - 1 < n`
(always the case for `idx` in range), the start flag equals `idx = 0`. -/
theorem allTrue_isStart_lt (n idx : Nat) (h : idx - 1 < n) :
    (true && (decide (idx = 0) || !(List.replicate n true).getD (idx - 1) false))
      = decide (idx = 0) := by
  by_cases hidx : idx = 0
  · simp [hidx]
  · rw [replicate_getD, if_pos h]
    simp [hidx]

/-- On an all-true position array, with `idx + 1` in range or `idx = n - 1`,
the end flag equals `idx = n - 1`. -/
theorem allTrue_isEnd (n idx : Nat) (h : idx < n) :
    (true && (decide (idx = (List.replicate n true).length - 1)
        || !(List.replicate n true).getD (idx + 1) false))
      = decide (idx = n - 1) := by
  rw [List.length_replicate]
  by_cases hidx : idx = n - 1
  · simp [hidx]
  · have hlt : idx + 1 < n := by omega
    rw [replicate_getD, if_pos hlt]
    simp [hidx]

/-- Behaviour of the `colorLine` loop when every position is marked (the
empty-substring case): assuming one width entry per remaining position, a
positive final width, and a line exactly as long as the widths demand, the
loop emits the color code only at the very start (`idx = 0`), copies the
line, and emits the reset exactly after the final column. -/
theorem colorLineGo_allTrue (line cc : GoStr) (n : Nat) :
    ∀ (ws : List Nat) (idx offset : Nat), ws ≠ [] → idx + ws.length = n →
      offset + ws.sum = line.length → ws.getLast?.getD 0 ≠ 0 →
      colorLineGo line (List.replicate n true) cc idx offset ws
        = some ((if idx = 0 then cc else []) ++ line.drop offset ++ RESET) := by
  intro ws
  induction ws with
  | nil => intro idx offset hne; exact absurd rfl hne
  | cons w ws ih =>
    intro idx offset _ hlen hsum hlast
    cases ws with
    | nil =>
      simp only [List.getLast?_singleton, Option.getD_some] at hlast
      simp only [List.length_cons, List.length_nil, List.sum_cons, List.sum_nil,
        Nat.add_zero, Nat.zero_add] at hlen hsum
      have hofflt : offset < line.length := by omega
      have hidxlt : idx < n := by omega
      have hget : (List.replicate n true).get? idx = some true := by
        rw [replicate_get?, if_pos hidxlt]
      rw [colorLineGo_cons_reduce line cc _ idx offset w [] true hofflt hget,
        allTrue_isStart_lt n idx (by omega), allTrue_isEnd n idx hidxlt]
      have hmin : min (offset + w) line.length = line.length := by omega
      rw [hmin]
      have hlast' : colorLineGo line (List.replicate n true) cc (idx + 1) line.length []
          = some [] := by
        simp only [colorLineGo, List.drop_length]
      rw [hlast', Option.map_some']
      have hseg : (line.drop offset).take (line.length - offset) = line.drop offset := by
        rw [← List.length_drop]
        exact List.take_length _
      have hidxn : idx = n - 1 := by omega
      simp only [decide_eq_true_eq, hseg]
      rw [if_pos hidxn]
      by_cases hidx : idx = 0
      · rw [if_pos hidx]
        simp [List.append_assoc]
      · rw [if_neg hidx]
        simp [List.append_assoc]
    | cons w' ws' =>
      have hlast' : (w' :: ws').getLast?.getD 0 ≠ 0 := by
        rwa [List.getLast?_cons_cons] at hlast
      simp only [List.length_cons, List.sum_cons] at hlen hsum
      have hsumpos : 0 < w + (w' + ws'.sum) := by
        rcases Nat.eq_zero_or_pos (w + (w' + ws'.sum)) with hz | hp
        · exfalso
          have hz' : (w' :: ws').sum = 0 := by simp [List.sum_cons]; omega
          exact hlast' (sum_zero_last hz')
        · exact hp
      have hofflt : offset < line.length := by omega
      have hidxlt : idx < n := by omega
      have hget : (List.replicate n true).get? idx = some true := by
        rw [replicate_get?, if_pos hidxlt]
      rw [colorLineGo_cons_reduce line cc _ idx offset w (w' :: ws') true hofflt hget,
        allTrue_isStart_lt n idx (by omega), allTrue_isEnd n idx hidxlt]
      have hwle : offset + w ≤ line.length := by omega
      have hmin : min (offset + w) line.length = offset + w := by omega
      rw [hmin]
      have hrec := ih (idx + 1) (offset + w) (by simp)
        (by simp only [List.length_cons]; omega)
        (by simp only [List.sum_cons]; omega) hlast'
      rw [hrec, Option.map_some']
      have hnotend : idx ≠ n - 1 := by omega
      simp only [decide_eq_true_eq]
      rw [if_neg hnotend, if_neg (Nat.succ_ne_zero idx)]
      have hglue : (line.drop offset).take w ++ line.drop (offset + w) = line.drop offset := by
        have h1 : line.drop (offset + w) = (line.drop offset).drop w := by
          rw [List.drop_drop, Nat.add_comm]
        rw [h1]
        exact List.take_append_drop w (line.drop offset)
      have hww : offset + w - offset = w := by omega
      rw [hww]
      by_cases hidx : idx = 0
      · rw [if_pos hidx]
        simp only [List.nil_append, List.append_nil, List.append_assoc]
        rw [← List.append_assoc ((line.drop offset).take w), hglue]
      · rw [if_neg hidx]
        simp only [List.nil_append, List.append_nil, List.append_assoc]
        rw [← List.append_assoc ((line.drop offset).take w), hglue]

/-- If the width sequence runs past the end of the position array while the
art line still has unconsumed columns, the loop reads `positions[idx]` out of
range: a panic (`none`). -/
theorem colorLineGo_oob (line cc : GoStr) (positions : List Bool) :
    ∀ (ws : List Nat) (idx offset : Nat), positions.length < idx + ws.length →
      idx ≤ positions.length →
      offset + (ws.take (positions.length - idx)).sum < line.length →
      colorLineGo line positions cc idx offset ws = none := by
  intro ws
  induction ws with
  | nil =>
    intro idx offset h1 h2 _
    simp only [List.length_nil, Nat.add_zero] at h1
    omega
  | cons w ws ih =>
    intro idx offset h1 h2 h3
    by_cases hidx : idx = positions.length
    · have htake : (w :: ws).take (positions.length - idx) = [] := by
        rw [hidx, Nat.sub_self, List.take_zero]
      rw [htake] at h3
      simp only [List.sum_nil, Nat.add_zero] at h3
      have hget : positions.get? idx = none := by
        rw [hidx]
        exact List.get?_eq_none.mpr (Nat.le_refl _)
      simp only [colorLineGo, if_neg (Nat.not_le.mpr h3), hget]
    · have hlt : idx < positions.length := by omega
      have htake : (w :: ws).take (positions.length - idx)
          = w :: ws.take (positions.length - idx - 1) := by
        have hs : positions.length - idx = (positions.length - idx - 1) + 1 := by omega
        conv_lhs => rw [hs]
        rw [List.take_succ_cons]
      rw [htake] at h3
      simp only [List.sum_cons] at h3
      have hoff : offset < line.length := by omega
      have hget : positions.get? idx = some (positions.get ⟨idx, hlt⟩) :=
        List.get?_eq_get hlt
      rw [colorLineGo_cons_reduce line cc positions idx offset w ws _ hoff hget]
      have hmin : min (offset + w) line.length = offset + w := by omega
      rw [hmin]
      have hrec : colorLineGo line positions cc (idx + 1) (offset + w) ws = none := by
        apply ih
        · simp only [List.length_cons] at h1; omega
        · omega
        · have hs : positions.length - (idx + 1) = positions.length - idx - 1 := by omega
          rw [hs]; omega
      rw [hrec]
      rfl

theorem inserted_refl (cc rst : GoStr) : ∀ l : GoStr, Inserted cc rst l l
  | [] => .nil
  | c :: l => .copy c (inserted_refl cc rst l)

theorem inserted_prepend (cc rst : GoStr) (pre : GoStr) {l r : GoStr}
    (h : Inserted cc rst l r) : Inserted cc rst (pre ++ l) (pre ++ r) := by
  induction pre with
  | nil => exact h
  | cons c cs ih => exact .copy c ih

/-- Whenever the width sequence stays within the position array, the
`colorLine` loop cannot panic, and its output is the remaining art content
`line[offset:]` with copies of the color code and the reset inserted —
no art column is dropped, duplicated or reordered. -/
theorem colorLineGo_inserted (line cc : GoStr) (positions : List Bool) :
    ∀ (ws : List Nat) (idx offset : Nat), idx + ws.length ≤ positions.length →
      ∃ out, colorLineGo line positions cc idx offset ws = some out ∧
        Inserted cc RESET (line.drop offset) out := by
  intro ws
  induction ws with
  | nil =>
    intro idx offset _
    exact ⟨line.drop offset, rfl, inserted_refl cc RESET _⟩
  | cons w ws ih =>
    intro idx offset h
    by_cases hoff : line.length ≤ offset
    · refine ⟨line.drop offset, ?_, inserted_refl cc RESET _⟩
      simp only [colorLineGo, if_pos hoff]
    · have hoff' : offset < line.length := Nat.lt_of_not_le hoff
      have hlt : idx < positions.length := by
        simp only [List.length_cons] at h; omega
      have hget : positions.get? idx = some (positions.get ⟨idx, hlt⟩) :=
        List.get?_eq_get hlt
      obtain ⟨out, hout, hins⟩ := ih (idx + 1) (min (offset + w) line.length)
        (by simp only [List.length_cons] at h; omega)
      rw [colorLineGo_cons_reduce line cc positions idx offset w ws _ hoff' hget, hout,
        Option.map_some']
      refine ⟨_, rfl, ?_⟩
      have hoe : offset ≤ min (offset + w) line.length := by omega
      have hsegdrop :
          (line.drop offset).take (min (offset + w) line.length - offset)
            ++ line.drop (min (offset + w) line.length) = line.drop offset := by
        have h1 : line.drop (min (offset + w) line.length)
            = (line.drop offset).drop (min (offset + w) line.length - offset) := by
          rw [List.drop_drop]
          congr 1
          omega
        rw [h1, List.take_append_drop]
      have step1 : Inserted cc RESET (line.drop (min (offset + w) line.length))
          ((if (positions.get ⟨idx, hlt⟩ &&
              (decide (idx = positions.length - 1) ||
                !(positions.getD (idx + 1) false))) = true
            then RESET else []) ++ out) := by
        split
        · exact .reset hins
        · simpa using hins
      have step2 := inserted_prepend cc RESET
        ((line.drop offset).take (min (offset + w) line.length - offset)) step1
      rw [hsegdrop] at step2
      split
      · simpa [List.append_assoc] using Inserted.code step2
      · simpa [List.append_assoc] using step2

/-! ## CharWidths helper lemmas -/

theorem bannerGet_some {b : Banner} {c : Char} {g : Glyph}
    (h : bannerGet b c = some g) : ∃ e ∈ b, e.2 = some g := by
  unfold bannerGet at h
  cases hf : bannerFind b c with
  | none => rw [hf] at h; cases h
  | some e =>
    rw [hf] at h
    exact ⟨e, List.mem_of_find?_eq_some hf, h⟩

theorem charWidthsLoop_length (banner : Banner) :
    ∀ (cs : List Char) (i : Nat) (ws out : List Nat),
      charWidthsLoop banner cs i ws = some out → out.length = ws.length := by
  intro cs
  induction cs with
  | nil =>
    intro i ws out h
    simp only [charWidthsLoop] at h
    cases h
    rfl
  | cons c cs ih =>
    intro i ws out h
    cases hb : bannerGet banner c with
    | none =>
      simp only [charWidthsLoop, hb] at h
      exact ih _ _ _ h
    | some g =>
      cases g with
      | nil => simp only [charWidthsLoop, hb] at h; cases h
      | cons r0 rest =>
        simp only [charWidthsLoop, hb] at h
        have := ih _ _ _ h
        rwa [List.length_set] at this

theorem set_append_cons (pre : List α) (x v : α) (rest : List α) :
    (pre ++ x :: rest).set pre.length v = pre ++ v :: rest := by
  induction pre with
  | nil => rfl
  | cons a as ih =>
    simp only [List.cons_append, List.length_cons]
    show a :: ((as ++ x :: rest).set as.length v) = a :: (as ++ v :: rest)
    rw [ih]

theorem byteLen_ascii {s : GoStr} (h : ∀ c ∈ s, c.utf8Size = 1) :
    byteLen s = s.length := by
  induction s with
  | nil => rfl
  | cons c cs ih =>
    simp only [byteLen, List.map_cons, List.sum_cons, List.length_cons]
    rw [h c (List.mem_cons_self c cs)]
    have := ih (fun x hx => h x (List.mem_cons_of_mem _ hx))
    simp only [byteLen] at this
    omega

theorem charWidthsLoop_ascii (banner : Banner) :
    ∀ (cs : List Char) (pre out : List Nat),
      (∀ c ∈ cs, c.utf8Size = 1) →
      charWidthsLoop banner cs pre.length (pre ++ List.replicate cs.length 0) = some out →
      out = pre ++ cs.map (charWidthSpec banner) := by
  intro cs
  induction cs with
  | nil =>
    intro pre out _ h
    simp only [charWidthsLoop, List.length_nil, List.replicate_zero,
      List.append_nil] at h
    cases h
    simp
  | cons c cs ih =>
    intro pre out hascii h
    have hc : c.utf8Size = 1 := hascii c (List.mem_cons_self c cs)
    have hascii' : ∀ x ∈ cs, x.utf8Size = 1 :=
      fun x hx => hascii x (List.mem_cons_of_mem _ hx)
    cases hb : bannerGet banner c with
    | none =>
      simp only [charWidthsLoop, hb, List.length_cons, List.replicate_succ, hc] at h
      have hre : pre ++ 0 :: List.replicate cs.length 0
          = (pre ++ [0]) ++ List.replicate cs.length 0 := by simp
      have hlen : pre.length + 1 = (pre ++ [0]).length := by simp
      rw [hre, hlen] at h
      have := ih (pre ++ [0]) out hascii' h
      rw [this]
      simp [charWidthSpec, hb]
    | some g =>
      cases g with
      | nil => simp only [charWidthsLoop, hb] at h; cases h
      | cons r0 rest =>
        simp only [charWidthsLoop, hb, List.length_cons, List.replicate_succ, hc] at h
        rw [set_append_cons pre 0 (byteLen r0) (List.replicate cs.length 0)] at h
        have hre : pre ++ byteLen r0 :: List.replicate cs.length 0
            = (pre ++ [byteLen r0]) ++ List.replicate cs.length 0 := by simp
        have hlen : pre.length + 1 = (pre ++ [byteLen r0]).length := by simp
        rw [hre, hlen] at h
        have := ih (pre ++ [byteLen r0]) out hascii' h
        rw [this]
        simp [charWidthSpec, hb]

theorem charWidthsLoop_total (banner : Banner)
    (hb : ∀ e ∈ banner, e.2 ≠ some ([] : Glyph)) :
    ∀ (cs : List Char) (i : Nat) (ws : List Nat),
      ∃ out, charWidthsLoop banner cs i ws = some out := by
  intro cs
  induction cs with
  | nil => intro i ws; exact ⟨ws, rfl⟩
  | cons c cs ih =>
    intro i ws
    cases hbg : bannerGet banner c with
    | none =>
      obtain ⟨out, hout⟩ := ih (i + c.utf8Size) ws
      exact ⟨out, by simp only [charWidthsLoop, hbg]; exact hout⟩
    | some g =>
      cases g with
      | nil =>
        exfalso
        obtain ⟨e, hmem, he⟩ := bannerGet_some hbg
        exact hb e hmem he
      | cons r0 rest =>
        obtain ⟨out, hout⟩ := ih (i + c.utf8Size) (ws.set i (byteLen r0))
        exact ⟨out, by simp only [charWidthsLoop, hbg]; exact hout⟩

/-! ## Banner-loop characterization -/

theorem entriesFrom_95 (start : Nat) (lines : List GoStr) :
    entriesFrom start lines 95 = [] := by
  simp [entriesFrom]

theorem entriesFrom_zero (start : Nat) (lines : List GoStr) :
    entriesFrom start lines 0 = bannerTable start lines := by
  simp [entriesFrom, bannerTable]

theorem entriesFrom_succ (start : Nat) (lines : List GoStr) (k : Nat) (hk : k < 95) :
    entriesFrom start lines k
      = tableEntry start lines k :: entriesFrom start lines (k + 1) := by
  unfold entriesFrom
  have h1 : 95 - k = (95 - (k + 1)) + 1 := by omega
  rw [h1, List.range_succ_eq_map]
  simp only [List.map_cons, List.map_map, Nat.add_zero]
  congr 1
  apply List.map_congr_left
  intro j _
  simp only [Function.comp_apply]
  congr 1
  omega

theorem bannerLoop_spec (lines : List GoStr) (start : Nat)
    (h855 : lines.length = 855) (hstart : start ≤ 1) :
    ∀ n : Nat, n ≤ 95 → ∀ acc : Banner,
      bannerLoop lines n (32 + (95 - n)) (start + 9 * (95 - n)) acc
        = acc ++ entriesFrom start lines (95 - n) := by
  intro n
  induction n with
  | zero =>
    intro _ acc
    simp only [bannerLoop, Nat.sub_zero, entriesFrom_95, List.append_nil]
  | succ n ih =>
    intro hn acc
    have hk : 95 - (n + 1) < 95 := by omega
    have hcond : start + 9 * (95 - (n + 1)) + 8 ≤ lines.length
        ∧ 32 + (95 - (n + 1)) ≤ 126 := ⟨by omega, by omega⟩
    simp only [bannerLoop]
    rw [if_pos hcond]
    have e1 : 32 + (95 - (n + 1)) + 1 = 32 + (95 - n) := by omega
    have e2 : start + 9 * (95 - (n + 1)) + 9 = start + 9 * (95 - n) := by omega
    rw [e1, e2, ih (by omega)]
    rw [entriesFrom_succ start lines (95 - (n + 1)) hk]
    have e3 : 95 - (n + 1) + 1 = 95 - n := by omega
    rw [e3]
    simp [tableEntry, List.append_assoc]

theorem bannerTable_length (start : Nat) (lines : List GoStr) :
    (bannerTable start lines).length = 95 := by
  simp [bannerTable]

theorem buildBanner_eq {lines : List GoStr} (h : lines.length = 855) :
    buildBanner lines = .ok (bannerTable 1 lines) := by
  have hl := bannerLoop_spec lines 1 h (by omega) 95 (by omega) []
  norm_num [entriesFrom_zero] at hl
  unfold buildBanner
  rw [if_neg (by omega), if_neg (by omega)]
  simp only [hl]
  rw [if_neg (by simp [bannerTable_length])]

theorem buildBannerPath_eq {lines : List GoStr} (h : lines.length = 855) :
    buildBannerPath lines = .ok (bannerTable 0 lines) := by
  have hl := bannerLoop_spec lines 0 h (by omega) 95 (by omega) []
  norm_num [entriesFrom_zero] at hl
  unfold buildBannerPath
  rw [if_neg (by omega), if_neg (by omega)]
  simp only [hl]
  rw [if_neg (by simp [bannerTable_length])]

theorem buildBanner_ok_length {lines : List GoStr} {b : Banner}
    (h : buildBanner lines = .ok b) : lines.length = 855 := by
  unfold buildBanner at h
  by_cases h0 : lines.length = 0
  · rw [if_pos h0] at h; cases h
  · rw [if_neg h0] at h
    by_cases h855 : lines.length ≠ 855
    · rw [if_pos h855] at h; cases h
    · exact not_not.mp h855

/-! ## Renderer helper lemmas -/

theorem splitOnNl_ne_nil (s : GoStr) : splitOnNl s ≠ [] := by
  cases s with
  | nil => simp [splitOnNl]
  | cons c cs =>
    simp only [splitOnNl]
    split
    · simp
    · split <;> simp

theorem splitOnNl_single {s : GoStr} (h : splitOnNl s = [[]]) : s = [] := by
  cases s with
  | nil => rfl
  | cons c cs =>
    exfalso
    simp only [splitOnNl] at h
    split at h
    · rename_i heq
      exact splitOnNl_ne_nil cs heq
    · split at h <;> simp at h

theorem dropTrailingEmpty_ne_nil {s : GoStr} (h : s ≠ []) :
    dropTrailingEmpty (splitOnNl s) ≠ [] := by
  unfold dropTrailingEmpty
  split
  · rename_i hlast
    cases hp : splitOnNl s with
    | nil => exact absurd hp (splitOnNl_ne_nil s)
    | cons p ps =>
      cases ps with
      | nil =>
        rw [hp] at hlast
        simp only [List.getLast?_singleton, Option.some_inj] at hlast
        exact absurd (splitOnNl_single (by rw [hp, hlast])) h
      | cons q qs =>
        simp [List.dropLast]
  · exact splitOnNl_ne_nil s

theorem renderRow_endsNl {line : GoStr} {banner : Banner} {i : Nat} {r : GoStr}
    (h : renderRow line banner i = .ok r) : EndsNl r := by
  unfold renderRow at h
  cases hm : mapME (fun ch => (validateBannerCharacters ch banner).map
      (fun v => v.getD i [])) line with
  | error e => rw [hm] at h; simp [Except.map] at h
  | ok pieces =>
    rw [hm] at h
    simp only [Except.map, Except.ok.injEq] at h
    exact ⟨pieces.flatten, h.symm⟩

theorem renderBlock_endsNl {line : GoStr} {banner : Banner} {r : GoStr}
    (h : renderBlock line banner = .ok r) : EndsNl r := by
  unfold renderBlock at h
  cases hm : mapME (fun i => renderRow line banner i) (List.range 8) with
  | error e => rw [hm] at h; simp [Except.map] at h
  | ok rows =>
    rw [hm] at h
    simp only [Except.map, Except.ok.injEq] at h
    obtain ⟨hlen, hmem⟩ := mapME_ok hm
    subst h
    apply endsNl_flatten
    · intro hnil
      rw [hnil] at hlen
      simp at hlen
    · intro x hx
      obtain ⟨i, _, hro⟩ := hmem x hx
      exact renderRow_endsNl hro

theorem validChar_false_iff (c : Char) :
    (!validChar c) = true ↔ c ≠ '\n' ∧ (c.toNat < 32 ∨ 126 < c.toNat) := by
  constructor
  · intro h
    have hv : validChar c = false := by
      cases hvc : validChar c
      · rfl
      · rw [hvc] at h; cases h
    unfold validChar at hv
    rw [Bool.or_eq_false_iff] at hv
    obtain ⟨h1, h2⟩ := hv
    rw [Bool.and_eq_false_iff] at h2
    refine ⟨fun hc => by rw [hc] at h1; simp at h1, ?_⟩
    rcases h2 with h2 | h2
    · left; have := of_decide_eq_false h2; omega
    · right; have := of_decide_eq_false h2; omega
  · rintro ⟨h1, h2⟩
    have hv : validChar c = false := by
      unfold validChar
      rw [Bool.or_eq_false_iff]
      refine ⟨by simp only [beq_eq_false_iff_ne, ne_eq]; exact h1, ?_⟩
      rw [Bool.and_eq_false_iff]
      rcases h2 with h2 | h2
      · left; rw [decide_eq_false_iff_not]; omega
      · right; rw [decide_eq_false_iff_not]; omega
    rw [hv]
    rfl

/-! ## Claim C1 -/

/-- Claim C1, as stated, is false: for text `banana`, substring `ana`,
all-1 widths and the single art line `banana`, ApplyColor produces one
contiguous span covering positions 1 through 5 (the union of the occurrence
windows at offsets 1 and 3), not positions 1 through 3. -/
theorem C1_counterexample :
    ApplyColor ["banana".toList] "banana".toList "ana".toList RED [1, 1, 1, 1, 1, 1]
        = some [['b'] ++ RED ++ "anana".toList ++ RESET]
      ∧ (['b'] ++ RED ++ "anana".toList ++ RESET : GoStr)
        ≠ ['b'] ++ RED ++ "ana".toList ++ RESET ++ "na".toList :=
  ⟨by decide, by decide⟩

/-- Claim C1 (amended): for text `banana`, substring `ana`, all-1 widths,
the single art line `banana` and the red color code, ApplyColor produces
exactly one contiguous colored span covering positions 1 through 5
(0-indexed): one color-code insertion after column 0 and one reset insertion
after column 5, the union of the two literal occurrence windows. -/
theorem C1_amended :
    ApplyColor ["banana".toList] "banana".toList "ana".toList RED [1, 1, 1, 1, 1, 1]
      = some [['b'] ++ RED ++ "anana".toList ++ RESET] := by
  decide

/-! ## Claim C2 -/

/-- Claim C2, as stated, is false: the renderer `ASCII` (part_005) terminates
every block row with a line-break, so a successful render of `A` ends with a
trailing line-break. -/
theorem C2_counterexample :
    ASCII ['A'] bannerA = .ok "A1\nA2\nA3\nA4\nA5\nA6\nA7\nA8\n".toList
      ∧ ("A1\nA2\nA3\nA4\nA5\nA6\nA7\nA8\n".toList : GoStr).getLast? = some '\n' :=
  ⟨by rfl, by rfl⟩

/-- Claim C2 (amended): for every non-empty input whose rendering succeeds,
the string returned by the renderer `ASCII` ends WITH a trailing line-break:
every block row, including the final block's last row, is terminated by one
(callers strip the final line-break themselves). -/
theorem C2_amended (input : GoStr) (banner : Banner) (s : GoStr)
    (hne : input ≠ []) (h : ASCII input banner = .ok s) : EndsNl s := by
  unfold ASCII at h
  cases hv : validateInput input with
  | error e => rw [hv] at h; cases h
  | ok u =>
    simp only [hv] at h
    rw [if_neg hne] at h
    by_cases hb : banner.length = 0
    · rw [if_pos hb] at h; cases h
    · rw [if_neg hb] at h
      cases hm : mapME (fun line => if line = [] then Except.ok ['\n']
          else renderBlock line banner) (dropTrailingEmpty (splitOnNl input)) with
      | error e => rw [hm] at h; simp [Except.map] at h
      | ok res =>
        rw [hm] at h
        simp only [Except.map, Except.ok.injEq] at h
        subst h
        obtain ⟨hlen, hmem⟩ := mapME_ok hm
        apply endsNl_flatten
        · intro hnil
          rw [hnil] at hlen
          exact dropTrailingEmpty_ne_nil hne
            (List.eq_nil_of_length_eq_zero hlen.symm)
        · intro x hx
          obtain ⟨a, _, hfa⟩ := hmem x hx
          by_cases ha : a = []
          · rw [if_pos ha] at hfa
            cases hfa
            exact ⟨[], rfl⟩
          · rw [if_neg ha] at hfa
            exact renderBlock_endsNl hfa

theorem C2_witness :
    (['A'] : GoStr) ≠ []
      ∧ ASCII ['A'] bannerA = .ok "A1\nA2\nA3\nA4\nA5\nA6\nA7\nA8\n".toList
      ∧ EndsNl "A1\nA2\nA3\nA4\nA5\nA6\nA7\nA8\n".toList :=
  ⟨by decide, by rfl,
    C2_amended ['A'] bannerA "A1\nA2\nA3\nA4\nA5\nA6\nA7\nA8\n".toList
      (by decide) (by rfl)⟩

/-! ## Claim C3 -/

/-- Claim C3, as stated, is false of the path-based parser variant
(part_007): it accepts `linesX` but stores, for the first supported
character, the 8 lines starting at index 0, not the lines at
indices 1 through 8. -/
theorem C3_counterexample :
    buildBannerPath linesX = .ok (bannerTable 0 linesX)
      ∧ (bannerTable 0 linesX).get? 0
          ≠ some (Char.ofNat 32, some ((linesX.drop 1).take 8)) := by
  refine ⟨buildBannerPath_eq linesX_length, ?_⟩
  decide

/-- Claim C3 (amended): grouping starts at line index 1 for the fs-based
parser (part_004): for every raw-line sequence its construction accepts, the
entry stored for the k-th supported character (k = 0..94) maps code point
32+k to exactly the 8 input lines at indices [1+9k, 1+9k+8), the very first
input line being consumed as a leading separator.  (The path-based variant
in part_007 instead starts at index 0, storing lines [9k, 9k+8).) -/
theorem C3_amended (lines : List GoStr) (b : Banner)
    (h : buildBanner lines = .ok b) :
    ∀ k, k < 95 → b.get? k
      = some (Char.ofNat (32 + k), some ((lines.drop (1 + 9 * k)).take 8)) := by
  intro k hk
  have h855 := buildBanner_ok_length h
  rw [buildBanner_eq h855] at h
  cases h
  unfold bannerTable
  rw [List.get?_eq_getElem?, List.getElem?_map, List.getElem?_range hk]
  rfl

theorem C3_witness :
    buildBanner lines855 = .ok (bannerTable 1 lines855)
      ∧ (bannerTable 1 lines855).get? 0
          = some (Char.ofNat 32, some ((lines855.drop 1).take 8)) := by
  have h : buildBanner lines855 = .ok (bannerTable 1 lines855) :=
    buildBanner_eq lines855_length
  refine ⟨h, ?_⟩
  have := C3_amended lines855 (bannerTable 1 lines855) h 0 (by norm_num)
  simpa using this

/-! ## Claim C4 -/

/-- Claim C4, as stated, is false: `CharWidths` allocates one entry per
byte, so the two-byte character `é` yields a sequence of length 2, not one
entry per code point. -/
theorem C4_counterexample :
    CharWidths ['é'] [] = some [0, 0]
      ∧ ([0, 0] : List Nat).length ≠ (['é'] : List Char).length :=
  ⟨by decide, by decide⟩

/-- Claim C4 (amended): whenever `CharWidths` returns (does not panic), the
returned sequence has one entry per UTF-8 byte of the text, not per code
point; for texts of single-byte characters the two coincide and each entry
is the byte length of row 0 of the character's glyph when present, 0 when
the character is absent or stored as nil. -/
theorem C4_amended (text : List Char) (banner : Banner) (ws : List Nat)
    (h : CharWidths text banner = some ws) :
    ws.length = byteLen text
      ∧ ((∀ c ∈ text, c.utf8Size = 1) → ws = text.map (charWidthSpec banner)) := by
  constructor
  · unfold CharWidths at h
    have := charWidthsLoop_length banner text 0 _ ws h
    simpa using this
  · intro hascii
    unfold CharWidths at h
    rw [byteLen_ascii hascii] at h
    have := charWidthsLoop_ascii banner text [] ws hascii (by simpa using h)
    simpa using this

theorem C4_witness :
    CharWidths ['a'] bannerW = some [2]
      ∧ ([2] : List Nat).length = byteLen ['a']
        ∧ ((∀ c ∈ (['a'] : List Char), c.utf8Size = 1)
            → [2] = (['a'] : List Char).map (charWidthSpec bannerW)) :=
  ⟨by decide, C4_amended ['a'] bannerW [2] (by decide)⟩

/-! ## Claim C5 -/

/-- Claim C5, as stated, is false: with art line `a`, text `ab` and the
single width 1, all the claim's hypotheses hold (non-empty inputs, art-line
length equals the width sum), yet the result carries no reset marker at all
because the loop never reaches the final position index. -/
theorem C5_counterexample :
    ApplyColor [['a']] ['a', 'b'] [] RED [1] = some [RED ++ ['a']]
      ∧ (RED ++ ['a'] : GoStr) ≠ RED ++ ['a'] ++ RESET :=
  ⟨by decide, by decide⟩

/-- Claim C5 (amended): the full-text round trip holds when the widths align
with the text: for non-empty artLines, non-empty text, and widths with
exactly one entry per byte of the text and a positive final entry, where
each art line's length equals the sum of the widths, ApplyColor with an
empty substring wraps each art line as colorCode ++ line ++ Reset — one
color marker at the very first column, one reset at the very last, and no
interior markers. -/
theorem C5_amended (art : List GoStr) (text cc : GoStr) (ws : List Nat)
    (h1 : art ≠ []) (h2 : text ≠ []) (h3 : ws ≠ [])
    (h4 : ws.length = text.length) (h5 : ws.getLast?.getD 0 ≠ 0)
    (h6 : ∀ line ∈ art, line.length = ws.sum) :
    ApplyColor art text [] cc ws = some (art.map (fun line => cc ++ line ++ RESET)) := by
  unfold ApplyColor
  rw [if_neg (by simp [List.length_eq_zero, h1, h2, h3])]
  rw [findPositions_nil_sub]
  apply mapMO_some_map
  intro line hline
  unfold colorLine
  have := colorLineGo_allTrue line cc text.length ws 0 0 h3
    (by simpa using h4) (by simpa using (h6 line hline).symm) h5
  simpa using this

theorem C5_witness :
    ([1, 1] : List Nat).getLast?.getD 0 ≠ 0
      ∧ ApplyColor [['x', 'y']] ['a', 'b'] [] RED [1, 1]
          = some [RED ++ ['x', 'y'] ++ RESET] := by
  refine ⟨by decide, ?_⟩
  have := C5_amended [['x', 'y']] ['a', 'b'] RED [1, 1]
    (by decide) (by decide) (by decide) (by decide) (by decide) (by decide)
  simpa using this

/-! ## Claim C6 -/

/-- Claim C6 (confirmed): any input containing a character outside the
printable range 32..126 that is not the line-break character makes `ASCII`
fail, before any rendering, with an invalid-character error naming an
offending character (the Go function returns the empty string together with
that error, modelled by `Except.error`), regardless of the banner. -/
theorem C6_theorem (input : GoStr) (banner : Banner)
    (h : ∃ c ∈ input, c ≠ '\n' ∧ (c.toNat < 32 ∨ 126 < c.toNat)) :
    ∃ c, ASCII input banner = .error (.invalidChar c)
      ∧ c ∈ input ∧ c ≠ '\n' ∧ (c.toNat < 32 ∨ 126 < c.toNat) := by
  have hf : (input.find? (fun c => !validChar c)).isSome := by
    rw [List.find?_isSome]
    obtain ⟨c, hc, hprop⟩ := h
    exact ⟨c, hc, (validChar_false_iff c).mpr hprop⟩
  obtain ⟨c, hc⟩ := Option.isSome_iff_exists.mp hf
  have hpc : (!validChar c) = true := by simpa using List.find?_some hc
  obtain ⟨hne, hrange⟩ := (validChar_false_iff c).mp hpc
  refine ⟨c, ?_, List.mem_of_find?_eq_some hc, hne, hrange⟩
  simp only [ASCII, validateInput, hc]

theorem C6_witness :
    (∃ c ∈ (['H', '\t'] : GoStr), c ≠ '\n' ∧ (c.toNat < 32 ∨ 126 < c.toNat))
      ∧ ∃ c, ASCII ['H', '\t'] bannerA = .error (.invalidChar c)
          ∧ c ∈ (['H', '\t'] : GoStr) ∧ c ≠ '\n'
          ∧ (c.toNat < 32 ∨ 126 < c.toNat) :=
  ⟨by decide, C6_theorem ['H', '\t'] bannerA (by decide)⟩

/-! ## Claim C7 -/

/-- Claim C7, as stated, is false: `buildBanner` accepts any 855 raw lines
without validating row lengths, so a glyph can hold rows of unequal length
(here rows `ab` and `c` of the space glyph). -/
theorem C7_counterexample :
    buildBanner linesY = .ok (bannerTable 1 linesY)
      ∧ (bannerTable 1 linesY).get? 0
          = some (Char.ofNat 32, some [['a', 'b'], ['c'], [], [], [], [], [], []])
      ∧ (['a', 'b'] : GoStr) ∈ ([['a', 'b'], ['c'], [], [], [], [], [], []] : Glyph)
      ∧ (['c'] : GoStr) ∈ ([['a', 'b'], ['c'], [], [], [], [], [], []] : Glyph)
      ∧ (['a', 'b'] : GoStr).length ≠ (['c'] : GoStr).length := by
  exact ⟨buildBanner_eq linesY_length, by decide, by decide, by decide, by decide⟩

/-- Claim C7 (amended): for every raw input of exactly 855 lines,
construction succeeds with exactly 95 entries, each entry holding exactly 8
rows copied verbatim from the input (`lines[1+9k : 9+9k]` for the k-th
character); row lengths are not validated, so rows within one glyph have
equal length only when the corresponding input lines do. -/
theorem C7_amended (lines : List GoStr) (h : lines.length = 855) :
    buildBanner lines = .ok (bannerTable 1 lines)
      ∧ (bannerTable 1 lines).length = 95
      ∧ ∀ k, k < 95 → ∃ g, (bannerTable 1 lines).get? k
          = some (Char.ofNat (32 + k), some g)
          ∧ g.length = 8 ∧ g = (lines.drop (1 + 9 * k)).take 8 := by
  refine ⟨buildBanner_eq h, bannerTable_length 1 lines, ?_⟩
  intro k hk
  refine ⟨(lines.drop (1 + 9 * k)).take 8, ?_, ?_, rfl⟩
  · unfold bannerTable
    rw [List.get?_eq_getElem?, List.getElem?_map, List.getElem?_range hk]
    rfl
  · rw [List.length_take, List.length_drop, h]
    omega

theorem C7_witness :
    lines855.length = 855
      ∧ (buildBanner lines855 = .ok (bannerTable 1 lines855)
        ∧ (bannerTable 1 lines855).length = 95
        ∧ ∀ k, k < 95 → ∃ g, (bannerTable 1 lines855).get? k
            = some (Char.ofNat (32 + k), some g)
            ∧ g.length = 8 ∧ g = (lines855.drop (1 + 9 * k)).take 8) :=
  ⟨lines855_length, C7_amended lines855 lines855_length⟩

/-! ## Claim C8 -/

/-- Claim C8, as stated, is false: a table storing an explicitly empty
(non-nil) glyph makes `CharWidths` index `glyph[0]` out of range — a panic,
modelled by `none`. -/
theorem C8_counterexample : CharWidths ['a'] bannerBad = none := by decide

/-- Claim C8 (amended): `CharWidths` is total for every text and every table
in which no stored glyph is an empty non-nil slice: unknown characters and
nil-stored glyphs simply contribute width 0.  (A stored zero-row non-nil
glyph for a character of the text panics instead.) -/
theorem C8_amended (text : List Char) (banner : Banner)
    (h : ∀ e ∈ banner, e.2 ≠ some ([] : Glyph)) :
    ∃ ws, CharWidths text banner = some ws := by
  unfold CharWidths
  exact charWidthsLoop_total banner h text 0 _

theorem C8_witness :
    (∀ e ∈ bannerOk, e.2 ≠ some ([] : Glyph))
      ∧ ∃ ws, CharWidths ['a', 'b'] bannerOk = some ws :=
  ⟨by decide, C8_amended ['a', 'b'] bannerOk (by decide)⟩

/-! ## Claim C9 -/

/-- Claim C9 (confirmed): with non-empty artLines, non-empty text, a widths
sequence strictly longer than the text, and some art line longer than the
sum of the first `len(text)` widths, the per-line coloring reads the
position array out of range — a panic (`none`), not a value or an error. -/
theorem C9_theorem (art : List GoStr) (text sub cc : GoStr) (ws : List Nat)
    (h1 : art ≠ []) (h2 : text ≠ []) (h3 : text.length < ws.length)
    (line : GoStr) (hline : line ∈ art)
    (h4 : (ws.take text.length).sum < line.length) :
    ApplyColor art text sub cc ws = none := by
  have h3' : ws ≠ [] := by
    intro hw
    rw [hw] at h3
    simp at h3
  unfold ApplyColor
  rw [if_neg (by simp [List.length_eq_zero, h1, h2, h3'])]
  apply mapMO_eq_none hline
  unfold colorLine
  apply colorLineGo_oob
  · rw [findPositions_length]
    simpa using h3
  · simp
  · rw [findPositions_length]
    simpa using h4

theorem C9_witness :
    (['a'] : GoStr).length < ([1, 1] : List Nat).length
      ∧ (([1, 1] : List Nat).take 1).sum < (['a', 'b', 'c'] : GoStr).length
      ∧ ApplyColor [['a', 'b', 'c']] ['a'] [] RED [1, 1] = none :=
  ⟨by decide, by decide,
    C9_theorem [['a', 'b', 'c']] ['a'] [] RED [1, 1]
      (by decide) (by decide) (by decide) ['a', 'b', 'c'] (by decide) (by decide)⟩

/-! ## Claim C10 -/

/-- Claim C10 (confirmed): for every non-degenerate call whose color code
and reset do not occur in the art lines, ApplyColor returns exactly one
output line per input line, and each output line is the corresponding input
line with copies of the color code and the reset inserted — no art column
is dropped, duplicated or reordered (the `Inserted` relation). -/
theorem C10_theorem (art : List GoStr) (text sub cc : GoStr) (ws : List Nat)
    (h1 : art ≠ []) (h2 : text ≠ []) (h3 : ws ≠ []) (h4 : ws.length ≤ text.length)
    (_h5 : ∀ line ∈ art, occursIn cc line = false ∧ occursIn RESET line = false) :
    ∃ res, ApplyColor art text sub cc ws = some res
      ∧ res.length = art.length ∧ List.Forall₂ (Inserted cc RESET) art res := by
  have hall : ∀ line ∈ art, ∃ out,
      colorLine line (findPositions text sub) ws cc = some out
        ∧ Inserted cc RESET line out := by
    intro line hline
    obtain ⟨out, hout, hins⟩ := colorLineGo_inserted line cc
      (findPositions text sub) ws 0 0
      (by rw [findPositions_length]; simpa using h4)
    exact ⟨out, hout, by simpa using hins⟩
  obtain ⟨res, hres, hF⟩ := mapMO_forall₂ hall
  unfold ApplyColor
  rw [if_neg (by simp [List.length_eq_zero, h1, h2, h3])]
  exact ⟨res, hres, hF.length_eq.symm, hF⟩

theorem C10_witness :
    occursIn RED ['a', 'b'] = false ∧ occursIn RESET ['a', 'b'] = false
      ∧ ∃ res, ApplyColor [['a', 'b']] ['a', 'b'] ['a'] RED [1, 1] = some res
          ∧ res.length = 1 ∧ List.Forall₂ (Inserted RED RESET) [['a', 'b']] res := by
  refine ⟨by decide, by decide, ?_⟩
  have := C10_theorem [['a', 'b']] ['a', 'b'] ['a'] RED [1, 1]
    (by decide) (by decide) (by decide) (by decide) (by decide)
  simpa using this

end AsciiArtColor
